import Mathlib

/-!
# Shallow embedding of LogDevice's BufferedWriteCodec

Embeds `logdevice/common/buffered_writer/BufferedWriteCodec.cpp`:

* `BufferedWriteSinglePayloadsCodec.Encoder` / `.Estimator` — the payload
  section (length-prefixed concatenation, optional compression);
* `BufferedWriteCodec.Encoder` / `.Estimator` — the batch layer (header with
  checksum region, magic marker, flags, payload count, in-place backfill).

Byte buffers are `List Nat` (each element one byte).  `folly::IOBuf` state is
modelled by explicit `headroom` / `tailroom` / `data` fields.  A failing
`ld_check` assertion is modelled as `Option.none` (fatal abort): a function
returning `none` corresponds to an execution that trips an assertion.

External collaborators that are not part of this repository's sources
(zstd / lz4 compression libraries, the checksum function of `Checksum.h`) are
parameters: `CodecLib` bundles the compression primitives, and every theorem
that needs the checksum takes the checksum function as an argument.
-/

/-! ## Varint (folly::encodeVarint / encodeVarintSize), LEB128-style -/

/-- Fuel-indexed LEB128 encoder loop: emits 7-bit groups, little-endian, with
the continuation bit `0x80` on every byte except the last.  Mirrors folly's
`while (value >= 128)` loop; the fuel only bounds the iteration count. -/
def encodeVarintAux : Nat → Nat → List Nat
  | 0, n => [n % 128]
  | fuel + 1, n =>
    if n < 128 then [n] else (n % 128 + 128) :: encodeVarintAux fuel (n / 128)

/-- `folly::encodeVarint`: the LEB128 byte encoding of `n`.  Fuel `n` always
suffices since the value shrinks by a factor 128 each iteration. -/
def encodeVarint (n : Nat) : List Nat := encodeVarintAux n n

/-- `folly::encodeVarintSize`: number of bytes `encodeVarint` emits. -/
def encodeVarintSize (n : Nat) : Nat := (encodeVarint n).length

/-- `folly::kMaxVarintLength64`: maximum encoded size of a 64-bit varint. -/
def kMaxVarintLength64 : Nat := 10

/-- Varint reader (read side): first byte is the least significant group. -/
def decodeVarint : List Nat → Option (Nat × List Nat)
  | [] => none
  | b :: rest =>
    if b < 128 then some (b, rest)
    else
      match decodeVarint rest with
      | some (v, r) => some (b - 128 + v * 128, r)
      | none => none

/-! ## Compression model -/

/-- `Compression` request codes understood by the encoder. -/
inductive Compression
  | NONE
  | ZSTD
  | LZ4
  | LZ4_HC
deriving DecidableEq, Repr

/-- The external compression libraries (zstd, lz4, lz4hc): not part of this
repository, so kept abstract.  A compressor returning `none` models a library
failure (`ZSTD_isError` true, or `LZ4_compress*` returning a value ≤ 0); the
decompressors take the expected uncompressed length (exact-size decode).
The bound functions model `ZSTD_compressBound` / `LZ4_compressBound`. -/
structure CodecLib where
  zstd : Int → List Nat → Option (List Nat)
  lz4 : List Nat → Option (List Nat)
  lz4hc : List Nat → Option (List Nat)
  zstdBound : Nat → Nat
  lz4Bound : Nat → Nat
  zstdD : Nat → List Nat → Option (List Nat)
  lz4D : Nat → List Nat → Option (List Nat)

/-- Dispatch to the requested compressor, including the `ld_check(zstd_level
> 0)` guard of the ZSTD branch.  `NONE` is unreachable here (the caller
handles it first) and maps to the fatal value. -/
def compressBytes (lib : CodecLib) (compression : Compression) (zstd_level : Int)
    (d : List Nat) : Option (List Nat) :=
  match compression with
  | .ZSTD => if 0 < zstd_level then lib.zstd zstd_level d else none
  | .LZ4 => lib.lz4 d
  | .LZ4_HC => lib.lz4hc d
  | .NONE => none

/-- The compressed-size bound the encoder computes for the requested codec. -/
def compressedDataBound (lib : CodecLib) (compression : Compression) (n : Nat) : Nat :=
  if compression = .ZSTD then lib.zstdBound n else lib.lz4Bound n

/-! ## BufferedWriteSinglePayloadsCodec -/

namespace BufferedWriteSinglePayloadsCodec

/-- State of the payload-section encoder: an `IOBuf` with `headroom` reserved
bytes in front, `data` the bytes written so far (`blob_.length()`), and
`tailroom` the remaining writable bytes (the appender's length, growth 0). -/
structure Encoder where
  headroom : Nat
  tailroom : Nat
  data : List Nat
deriving DecidableEq, Repr

/-- `Encoder(capacity, headroom)`: allocates `headroom + capacity` bytes and
advances past the headroom, so the writable region has `capacity` bytes. -/
def Encoder.new (capacity headroom : Nat) : Encoder :=
  { headroom := headroom, tailroom := capacity, data := [] }

/-- `Encoder::append`: write `varint(len(payload))` then the payload bytes.
The two `ld_check`s (varint fits the remaining tailroom; `pushAtMost` appended
the whole payload) are fatal on violation. -/
def Encoder.append (e : Encoder) (payload : List Nat) : Option Encoder :=
  let v := encodeVarint payload.length
  if v.length ≤ e.tailroom then
    let e1 : Encoder :=
      { e with data := e.data ++ v, tailroom := e.tailroom - v.length }
    if payload.length ≤ e1.tailroom then
      some { e1 with data := e1.data ++ payload,
                     tailroom := e1.tailroom - payload.length }
    else none
  else none

/-- Sequence of `append` calls. -/
def Encoder.appendAll (e : Encoder) : List (List Nat) → Option Encoder
  | [] => some e
  | p :: ps =>
    match e.append p with
    | some e1 => e1.appendAll ps
    | none => none

/-- `Encoder::compress`: returns whether compression was adopted together with
the (possibly replaced) blob.  For a non-`NONE` request: compute the codec's
bound, allocate a fresh buffer of `headroom + kMaxVarintLength64 + bound`
preserving the headroom, write `varint(uncompressed_length)` then the codec's
output; `ld_check(out <= end)`; adopt the compressed buffer iff its length is
strictly smaller than the uncompressed blob. -/
def Encoder.compress (lib : CodecLib) (e : Encoder) (compression : Compression)
    (zstd_level : Int) : Option (Bool × Encoder) :=
  if compression = .NONE then some (true, e)
  else
    let bound := compressedDataBound lib compression e.data.length
    match compressBytes lib compression zstd_level e.data with
    | none => none
    | some cb =>
      let v := encodeVarint e.data.length
      let compressed_len := v.length + cb.length
      if compressed_len ≤ kMaxVarintLength64 + bound then
        if compressed_len < e.data.length then
          some (true, { headroom := e.headroom,
                        tailroom := kMaxVarintLength64 + bound - compressed_len,
                        data := v ++ cb })
        else some (false, e)
      else none

/-- `Encoder::encode`: run `compress`; when compression was not adopted the
caller's `compression` argument is reset to `NONE`.  Returns the final blob
(still carrying its headroom) and the actual compression value. -/
def Encoder.encode (lib : CodecLib) (e : Encoder) (compression : Compression)
    (zstd_level : Int) : Option (Encoder × Compression) :=
  match e.compress lib compression zstd_level with
  | none => none
  | some (compressed, e1) =>
    some (e1, if compressed then compression else .NONE)

/-- `Estimator`: running total of the uncompressed payload-section size. -/
structure Estimator where
  encoded_payloads_size : Nat
deriving DecidableEq, Repr

/-- `Estimator::append`: accumulate `varint_size(len) + len`. -/
def Estimator.append (est : Estimator) (payload : List Nat) : Estimator :=
  { encoded_payloads_size :=
      est.encoded_payloads_size + (encodeVarintSize payload.length + payload.length) }

/-- `Estimator::calculateSize`: the accumulated total. -/
def Estimator.calculateSize (est : Estimator) : Nat :=
  est.encoded_payloads_size

end BufferedWriteSinglePayloadsCodec

/-! ## Payload-section byte layout (specification-level helpers) -/

/-- The uncompressed payload-section bytes: `varint(len p) ++ p` for each
payload in order. -/
def sectionBytes : List (List Nat) → List Nat
  | [] => []
  | p :: ps => encodeVarint p.length ++ p ++ sectionBytes ps

/-- The uncompressed payload-section size: `varint_size(len p) + len p`
summed over the payloads. -/
def sectionSize : List (List Nat) → Nat
  | [] => 0
  | p :: ps => encodeVarintSize p.length + p.length + sectionSize ps

/-! ## BufferedWriteCodec (batch layer) -/

/-- `size_t` subtraction: unsigned 64-bit arithmetic, wrapping modulo `2^64`.
Used by the `BufferedWriteCodec::Encoder` constructor for
`capacity - header_size_`. -/
def usub64 (a b : Nat) : Nat := (a + 2 ^ 64 - b % 2 ^ 64) % 2 ^ 64

/-- Modelled from the spec: `BufferedWriteDecoderImpl::Flags::SIZE_INCLUDED`
lives in a header that is not among the sources; the spec fixes it as bit 0
of the flags byte (`flags = 0x01` for an uncompressed batch). -/
def SIZE_INCLUDED : Nat := 1

/-- Modelled from the spec: the numeric codes of the `Compression` enum are
declared outside the given sources.  The spec fixes `NONE = 0` (the flags
scenario `0x01`) and that the code occupies the flag bits above bit 0, so the
non-`NONE` codes are distinct values with bit 0 clear. -/
def compressionCode : Compression → Nat
  | .NONE => 0
  | .ZSTD => 2
  | .LZ4 => 4
  | .LZ4_HC => 6

namespace BufferedWriteCodec

/-- Anonymous-namespace `calculateHeaderSize`: checksum bytes + 2 (magic and
flags) + varint size of the batch size. -/
def calculateHeaderSize (checksum_bits : Nat) (appends_count : Nat) : Nat :=
  checksum_bits / 8 + 2 + encodeVarintSize appends_count

/-- Batch-layer encoder state. -/
structure Encoder where
  checksum_bits : Nat
  appends_count : Nat
  header_size : Nat
  payloads_encoder : BufferedWriteSinglePayloadsCodec.Encoder
deriving DecidableEq, Repr

/-- `Encoder(checksum_bits, appends_count, capacity)`: the inner payload
encoder gets capacity `capacity - header_size_` (size_t arithmetic, no
guard) and headroom `header_size_`. -/
def Encoder.new (checksum_bits appends_count capacity : Nat) : Encoder :=
  let header_size := calculateHeaderSize checksum_bits appends_count
  { checksum_bits := checksum_bits,
    appends_count := appends_count,
    header_size := header_size,
    payloads_encoder :=
      BufferedWriteSinglePayloadsCodec.Encoder.new
        (usub64 capacity header_size) header_size }

/-- `Encoder::append`: forwards to the inner payload-section encoder. -/
def Encoder.append (e : Encoder) (payload : List Nat) : Option Encoder :=
  (e.payloads_encoder.append payload).map
    fun pe => { e with payloads_encoder := pe }

/-- Sequence of `append` calls. -/
def Encoder.appendAll (e : Encoder) : List (List Nat) → Option Encoder
  | [] => some e
  | p :: ps =>
    match e.append p with
    | some e1 => e1.appendAll ps
    | none => none

/-- `Encoder::encodeHeader` on the blob obtained by `prepend(header_size_)`:
after the `checksum_bits/8` reserved bytes write the magic byte `0xb1`, the
flags byte `SIZE_INCLUDED | compression`, and `varint(appends_count_)`; then,
if `checksum_bits > 0`, the checksum of everything after the checksum region
is written into the reserved bytes.  `cksumFn bits d` models
`checksum_bytes` producing `bits/8` bytes over `d`. -/
def Encoder.encodeHeader (cksumFn : Nat → List Nat → List Nat) (e : Encoder)
    (compression : Compression) (sec : List Nat) : List Nat :=
  let flags := SIZE_INCLUDED ||| compressionCode compression
  let rest := 0xb1 :: flags :: (encodeVarint e.appends_count ++ sec)
  (if 0 < e.checksum_bits then cksumFn e.checksum_bits rest else []) ++ rest

/-- `Encoder::encode`: run the inner encode (which may downgrade
`compression` to `NONE`), check the blob still has at least `header_size_`
bytes of headroom (`ld_check`), backfill the header in place, and also check
that the header bytes written fill exactly the reserved region
(`ld_check(blob.writableData() + header_size_ == out)`). -/
def Encoder.encode (lib : CodecLib) (cksumFn : Nat → List Nat → List Nat)
    (e : Encoder) (compression : Compression) (zstd_level : Int) :
    Option (List Nat) :=
  match e.payloads_encoder.encode lib compression zstd_level with
  | none => none
  | some (blob, comp) =>
    if e.header_size ≤ blob.headroom then
      if e.checksum_bits / 8 + 2 + encodeVarintSize e.appends_count
          = e.header_size then
        some (e.encodeHeader cksumFn comp blob.data)
      else none
    else none

/-- Batch-layer estimator: tallies the number of appends and delegates the
payload sizes to the inner estimator. -/
structure Estimator where
  payloads_estimator : BufferedWriteSinglePayloadsCodec.Estimator
  appends_count : Nat
deriving DecidableEq, Repr

/-- `Estimator::append`. -/
def Estimator.append (est : Estimator) (payload : List Nat) : Estimator :=
  { payloads_estimator := est.payloads_estimator.append payload,
    appends_count := est.appends_count + 1 }

/-- `Estimator::calculateSize`. -/
def Estimator.calculateSize (est : Estimator) (checksum_bits : Nat) : Nat :=
  calculateHeaderSize checksum_bits est.appends_count +
    est.payloads_estimator.calculateSize

end BufferedWriteCodec

/-- Whole-batch encoding pipeline: construct the encoder with the payload
count and capacity, append every payload, and run the terminal `encode`. -/
def encodeBatch (lib : CodecLib) (cksumFn : Nat → List Nat → List Nat)
    (checksum_bits : Nat) (ps : List (List Nat)) (compression : Compression)
    (zstd_level : Int) (capacity : Nat) : Option (List Nat) :=
  match (BufferedWriteCodec.Encoder.new checksum_bits ps.length
      capacity).appendAll ps with
  | some e => e.encode lib cksumFn compression zstd_level
  | none => none

/-- Whole-batch estimation pipeline: feed every payload to a fresh estimator. -/
def estimateBatch (ps : List (List Nat)) : BufferedWriteCodec.Estimator :=
  ps.foldl BufferedWriteCodec.Estimator.append ⟨⟨0⟩, 0⟩

/-! ## Decoder (read side) -/

/-- Modelled from the spec: the flags-byte split of the decoder
(`BufferedWriteDecoderImpl` is not among the sources).  Bit 0 is the
`SIZE_INCLUDED` indicator; the remaining bits are the compression code. -/
def codeOfFlags (flags : Nat) : Option Compression :=
  match 2 * (flags / 2) with
  | 0 => some .NONE
  | 2 => some .ZSTD
  | 4 => some .LZ4
  | 6 => some .LZ4_HC
  | _ => none

/-- Decompressor dispatch on the read side: ZSTD decodes with the zstd
inverse; LZ4 and LZ4_HC both decode via the plain LZ4 inverse. -/
def decompFor (lib : CodecLib) : Compression → Nat → List Nat → Option (List Nat)
  | .NONE => fun _ d => some d
  | .ZSTD => lib.zstdD
  | .LZ4 => lib.lz4D
  | .LZ4_HC => lib.lz4D

/-- `ParsePayloads` state of the decoder: exactly `count` repetitions of
`varint(length)` followed by that many bytes, and the cursor must land
exactly on the end of the section. -/
def parsePayloads : Nat → List Nat → Option (List (List Nat))
  | 0, [] => some []
  | 0, _ :: _ => none
  | count + 1, bytes =>
    match decodeVarint bytes with
    | none => none
    | some (len, rest) =>
      if len ≤ rest.length then
        match parsePayloads count (rest.drop len) with
        | some ps => some (rest.take len :: ps)
        | none => none
      else none

/-- Modelled from the spec: the Decoder (section 4.3) is not among the
sources; single pass: strip `checksum_bits/8` checksum bytes, check the
magic byte `0xb1`, split the flags byte, read `varint(appends_count)`,
verify the checksum over everything after the checksum region, decompress
when the compression code is not `NONE` (exact uncompressed size), and parse
exactly `appends_count` length-prefixed payloads with no leftover bytes. -/
def decode (lib : CodecLib) (cksumFn : Nat → List Nat → List Nat)
    (checksum_bits : Nat) (blob : List Nat) : Option (List (List Nat)) :=
  let nb := checksum_bits / 8
  if blob.length < nb then none
  else
    match blob.drop nb with
    | magic :: flags :: rest2 =>
      if magic = 0xb1 then
        match codeOfFlags flags with
        | none => none
        | some comp =>
          match decodeVarint rest2 with
          | none => none
          | some (count, sec) =>
            if 0 < checksum_bits ∧ blob.take nb ≠ cksumFn checksum_bits (blob.drop nb)
            then none
            else
              match comp with
              | .NONE => parsePayloads count sec
              | _ =>
                match decodeVarint sec with
                | none => none
                | some (uncLen, cbytes) =>
                  match decompFor lib comp uncLen cbytes with
                  | none => none
                  | some d =>
                    if d.length = uncLen then parsePayloads count d else none
      else none
    | _ => none

/-! ## Concrete instances for closed-input evaluation -/

/-- Identity compression library: every compressor succeeds and returns its
input unchanged (so compression is never strictly smaller), and
decompression returns its input. -/
def idLib : CodecLib :=
  { zstd := fun _ d => some d,
    lz4 := fun d => some d,
    lz4hc := fun d => some d,
    zstdBound := fun n => n,
    lz4Bound := fun n => n,
    zstdD := fun _ d => some d,
    lz4D := fun _ d => some d }

/-- Zero-run compression library: an all-zero input compresses to the empty
byte string, anything else is stored verbatim; decompression inverts this
using the transmitted uncompressed length. -/
def rleC (d : List Nat) : Option (List Nat) :=
  some (if d = List.replicate d.length 0 then [] else d)

/-- Inverse of `rleC`, given the expected uncompressed length. -/
def rleD (n : Nat) (cb : List Nat) : Option (List Nat) :=
  some (if cb = [] then List.replicate n 0 else cb)

def rleLib : CodecLib :=
  { zstd := fun _ => rleC,
    lz4 := rleC,
    lz4hc := rleC,
    zstdBound := fun n => n,
    lz4Bound := fun n => n,
    zstdD := rleD,
    lz4D := rleD }

/-- Always-failing compression library: every compressor reports a library
error. -/
def failLib : CodecLib :=
  { zstd := fun _ _ => none,
    lz4 := fun _ => none,
    lz4hc := fun _ => none,
    zstdBound := fun n => n,
    lz4Bound := fun n => n,
    zstdD := fun _ _ => none,
    lz4D := fun _ _ => none }

/-- A concrete checksum function: `bits/8` copies of the byte sum mod 256. -/
def sumCksum (bits : Nat) (d : List Nat) : List Nat :=
  List.replicate (bits / 8) (d.foldr (· + ·) 0 % 256)


/-! ## Basic lemmas -/

theorem decodeVarint_encodeVarintAux (rest : List Nat) :
    ∀ fuel n, n < 128 ^ (fuel + 1) →
      decodeVarint (encodeVarintAux fuel n ++ rest) = some (n, rest) := by
  intro fuel
  induction fuel with
  | zero =>
    intro n hn
    have hn' : n < 128 := by simpa using hn
    simp [encodeVarintAux, decodeVarint, Nat.mod_eq_of_lt hn', hn']
  | succ f ih =>
    intro n hn
    by_cases h : n < 128
    · simp [encodeVarintAux, decodeVarint, h]
    · have hdiv : n / 128 < 128 ^ (f + 1) := by
        have : n < 128 ^ (f + 1) * 128 := by
          calc n < 128 ^ (f + 1 + 1) := hn
          _ = 128 ^ (f + 1) * 128 := by ring
        exact Nat.div_lt_of_lt_mul (by omega)
      have hge : ¬ (n % 128 + 128 < 128) := by omega
      simp only [encodeVarintAux, if_neg h, List.cons_append, decodeVarint,
        if_neg hge, ih (n / 128) hdiv]
      have hval : n % 128 + 128 - 128 + n / 128 * 128 = n := by omega
      rw [hval]

theorem decodeVarint_encodeVarint (n : Nat) (rest : List Nat) :
    decodeVarint (encodeVarint n ++ rest) = some (n, rest) := by
  apply decodeVarint_encodeVarintAux
  calc n < 2 ^ n := Nat.lt_two_pow n
  _ ≤ 128 ^ n := Nat.pow_le_pow_left (by norm_num) n
  _ ≤ 128 ^ (n + 1) := Nat.pow_le_pow_right (by norm_num) (by omega)

theorem sectionBytes_length (ps : List (List Nat)) :
    (sectionBytes ps).length = sectionSize ps := by
  induction ps with
  | nil => rfl
  | cons p ps ih =>
    simp [sectionBytes, sectionSize, ih, encodeVarintSize]
    omega

theorem parsePayloads_sectionBytes (ps : List (List Nat)) :
    parsePayloads ps.length (sectionBytes ps) = some ps := by
  induction ps with
  | nil => rfl
  | cons p ps ih =>
    have hdec : decodeVarint (encodeVarint p.length ++ (p ++ sectionBytes ps))
        = some (p.length, p ++ sectionBytes ps) := decodeVarint_encodeVarint _ _
    have hlen : p.length ≤ (p ++ sectionBytes ps).length := by
      simp
    simp only [List.length_cons, sectionBytes, List.append_assoc, parsePayloads,
      hdec, if_pos hlen]
    rw [List.take_left, List.drop_left, ih]

namespace BufferedWriteSinglePayloadsCodec

/-- Destructor for a successful `append`: the guards held and the result
state is determined. -/
theorem Encoder.append_some {e e1 : Encoder} {p : List Nat}
    (h : e.append p = some e1) :
    (encodeVarint p.length).length ≤ e.tailroom ∧
    p.length ≤ e.tailroom - (encodeVarint p.length).length ∧
    e1 = ⟨e.headroom, e.tailroom - (encodeVarint p.length).length - p.length,
          e.data ++ encodeVarint p.length ++ p⟩ := by
  by_cases h1 : (encodeVarint p.length).length ≤ e.tailroom
  · by_cases h2 : p.length ≤ e.tailroom - (encodeVarint p.length).length
    · simp only [Encoder.append, if_pos h1, if_pos h2, Option.some.injEq] at h
      exact ⟨h1, h2, h.symm⟩
    · simp [Encoder.append, if_pos h1, if_neg h2] at h
  · simp [Encoder.append, if_neg h1] at h

/-- A successful `append` run appends exactly the section bytes, preserves
the headroom, and consumes exactly the section size of tailroom. -/
theorem Encoder.appendAll_some :
    ∀ (ps : List (List Nat)) (e e1 : Encoder), e.appendAll ps = some e1 →
      e1.headroom = e.headroom ∧ e1.data = e.data ++ sectionBytes ps ∧
      e1.tailroom = e.tailroom - sectionSize ps := by
  intro ps
  induction ps with
  | nil =>
    intro e e1 h
    cases h
    simp [sectionBytes, sectionSize]
  | cons p ps ih =>
    intro e e1 h
    unfold Encoder.appendAll at h
    cases happ : e.append p with
    | none => rw [happ] at h; exact absurd h (by simp)
    | some e2 =>
      rw [happ] at h
      obtain ⟨h1, h2, rfl⟩ := Encoder.append_some happ
      obtain ⟨ih1, ih2, ih3⟩ := ih _ _ h
      refine ⟨ih1, ?_, ?_⟩
      · rw [ih2]
        simp [sectionBytes]
      · rw [ih3]
        simp only [sectionSize, encodeVarintSize]
        omega

/-- When the tailroom can hold the whole uncompressed section, every
`append` succeeds and the final state is fully determined. -/
theorem Encoder.appendAll_of_capacity :
    ∀ (ps : List (List Nat)) (e : Encoder), sectionSize ps ≤ e.tailroom →
      e.appendAll ps = some
        ⟨e.headroom, e.tailroom - sectionSize ps, e.data ++ sectionBytes ps⟩ := by
  intro ps
  induction ps with
  | nil =>
    intro e h
    simp [Encoder.appendAll, sectionSize, sectionBytes]
  | cons p ps ih =>
    intro e h
    simp only [sectionSize, encodeVarintSize] at h
    have h1 : (encodeVarint p.length).length ≤ e.tailroom := by omega
    have h2 : p.length ≤ e.tailroom - (encodeVarint p.length).length := by omega
    have happ : e.append p = some
        ⟨e.headroom, e.tailroom - (encodeVarint p.length).length - p.length,
         e.data ++ encodeVarint p.length ++ p⟩ := by
      simp only [Encoder.append, if_pos h1, if_pos h2]
    have hrec := ih ⟨e.headroom,
        e.tailroom - (encodeVarint p.length).length - p.length,
        e.data ++ encodeVarint p.length ++ p⟩ (by dsimp only; omega)
    dsimp only at hrec
    simp only [Encoder.appendAll, happ, hrec, Option.some.injEq, Encoder.mk.injEq]
    refine ⟨trivial, ?_, ?_⟩
    · simp only [sectionSize, encodeVarintSize]
      omega
    · simp [sectionBytes]

/-- Case analysis on a successful terminal `encode` of the payload-section
encoder: either the blob is unchanged and the recorded compression is `NONE`
(requested `NONE`, or compression not adopted), or compression was adopted,
the blob is `varint(uncompressed_len) ++ compressed_bytes`, strictly shorter
than the uncompressed data, and the request is recorded unchanged. -/
theorem Encoder.encode_cases {lib : CodecLib} {e blob : Encoder}
    {compression c' : Compression} {zstd_level : Int}
    (h : e.encode lib compression zstd_level = some (blob, c')) :
    blob.headroom = e.headroom ∧
    ((blob = e ∧ c' = (if compression = .NONE then compression else .NONE)) ∨
      (∃ cb, compressBytes lib compression zstd_level e.data = some cb ∧
        blob.data = encodeVarint e.data.length ++ cb ∧
        blob.data.length < e.data.length ∧ c' = compression ∧
        compression ≠ .NONE)) := by
  cases hc : e.compress lib compression zstd_level with
  | none => simp [Encoder.encode, hc] at h
  | some pr =>
    obtain ⟨compressed, e1⟩ := pr
    simp only [Encoder.encode, hc, Option.some.injEq, Prod.mk.injEq] at h
    obtain ⟨rfl, rfl⟩ := h
    by_cases hnone : compression = .NONE
    · simp only [Encoder.compress, if_pos hnone, Option.some.injEq,
        Prod.mk.injEq] at hc
      obtain ⟨rfl, rfl⟩ := hc
      exact ⟨rfl, Or.inl ⟨rfl, by simp [hnone]⟩⟩
    · simp only [Encoder.compress, if_neg hnone] at hc
      cases hcb : compressBytes lib compression zstd_level e.data with
      | none => rw [hcb] at hc; simp at hc
      | some cb =>
        rw [hcb] at hc
        simp only at hc
        split at hc
        · split at hc
          · rename_i hfit hlt
            simp only [Option.some.injEq, Prod.mk.injEq] at hc
            obtain ⟨rfl, rfl⟩ := hc
            refine ⟨rfl, Or.inr ⟨cb, ?_, ?_, ?_, ?_, ?_⟩⟩
            · rfl
            · rfl
            · simpa using hlt
            · simp
            · exact hnone
          · simp only [Option.some.injEq, Prod.mk.injEq] at hc
            obtain ⟨rfl, rfl⟩ := hc
            exact ⟨rfl, Or.inl ⟨rfl, by simp [hnone]⟩⟩
        · simp at hc

end BufferedWriteSinglePayloadsCodec

namespace BufferedWriteCodec

/-- `Encoder::append` just forwards, so a run of batch-layer appends is the
run of the inner payload-section appends. -/
theorem Encoder.appendAll_eq :
    ∀ (ps : List (List Nat)) (e : Encoder),
      e.appendAll ps = (e.payloads_encoder.appendAll ps).map
        (fun pe => { e with payloads_encoder := pe }) := by
  intro ps
  induction ps with
  | nil => intro e; rfl
  | cons p ps ih =>
    intro e
    cases hsp : e.payloads_encoder.append p with
    | none =>
      simp [Encoder.appendAll, Encoder.append, hsp,
        BufferedWriteSinglePayloadsCodec.Encoder.appendAll]
    | some pe =>
      simp only [Encoder.appendAll, Encoder.append, hsp, Option.map_some',
        BufferedWriteSinglePayloadsCodec.Encoder.appendAll, ih]

end BufferedWriteCodec

/-- Characterization of a successful append run followed by a terminal
encode, for an encoder constructed with an arbitrary `appends_count`: the
blob is the checksum region followed by the magic byte, the flags byte for
the actual compression `c'`, the varint of the constructor-supplied count
and the payload section `sec`; and `sec` is either the uncompressed section
bytes with `c' = NONE`, or the adopted compressed form (strictly shorter)
with `c'` the requested codec. -/
theorem encodeRun_spec {lib : CodecLib} {cksumFn : Nat → List Nat → List Nat}
    {bits ac : Nat} {ps : List (List Nat)} {comp : Compression} {lvl : Int}
    {cap : Nat} {e1 : BufferedWriteCodec.Encoder} {blob : List Nat}
    (hap : (BufferedWriteCodec.Encoder.new bits ac cap).appendAll ps = some e1)
    (h : e1.encode lib cksumFn comp lvl = some blob) :
    ∃ sec c',
      blob = (if 0 < bits then
          cksumFn bits (0xb1 :: (SIZE_INCLUDED ||| compressionCode c') ::
            (encodeVarint ac ++ sec)) else []) ++
        0xb1 :: (SIZE_INCLUDED ||| compressionCode c') ::
          (encodeVarint ac ++ sec) ∧
      ((sec = sectionBytes ps ∧ c' = .NONE) ∨
        (∃ cb, compressBytes lib comp lvl (sectionBytes ps) = some cb ∧
          sec = encodeVarint (sectionBytes ps).length ++ cb ∧
          sec.length < (sectionBytes ps).length ∧ c' = comp ∧
          comp ≠ .NONE)) := by
  rw [BufferedWriteCodec.Encoder.appendAll_eq] at hap
  cases hsp : (BufferedWriteCodec.Encoder.new bits ac
      cap).payloads_encoder.appendAll ps with
  | none => rw [hsp] at hap; simp at hap
  | some pe =>
    rw [hsp] at hap
    simp only [Option.map_some', Option.some.injEq] at hap
    subst hap
    obtain ⟨hh, hd, _⟩ := BufferedWriteSinglePayloadsCodec.Encoder.appendAll_some
      _ _ _ hsp
    simp only [BufferedWriteCodec.Encoder.new,
      BufferedWriteSinglePayloadsCodec.Encoder.new, List.nil_append] at hh hd
    cases hspe : pe.encode lib comp lvl with
    | none =>
      simp [BufferedWriteCodec.Encoder.encode, hspe] at h
    | some pr =>
      obtain ⟨spblob, c'⟩ := pr
      obtain ⟨hhr, hcases⟩ :=
        BufferedWriteSinglePayloadsCodec.Encoder.encode_cases hspe
      have hhs : (BufferedWriteCodec.Encoder.new bits ac
          cap).header_size ≤ spblob.headroom := by
        rw [hhr, hh]
        exact le_of_eq rfl
      have hhdr : (BufferedWriteCodec.Encoder.new bits ac
            cap).checksum_bits / 8 + 2 +
          encodeVarintSize (BufferedWriteCodec.Encoder.new bits ac
            cap).appends_count
          = (BufferedWriteCodec.Encoder.new bits ac cap).header_size :=
        rfl
      simp only [BufferedWriteCodec.Encoder.encode, hspe] at h
      rw [if_pos hhs, if_pos hhdr] at h
      simp only [Option.some.injEq] at h
      subst h
      refine ⟨spblob.data, c', ?_, ?_⟩
      · rfl
      · rcases hcases with ⟨rfl, hc⟩ | ⟨cb, hcb, hdata, hlt, hc, hne⟩
        · refine Or.inl ⟨hd, ?_⟩
          rw [hc]
          split <;> simp_all
        · rw [hd] at hcb hdata hlt
          exact Or.inr ⟨cb, hcb, hdata, hlt, hc, hne⟩

/-- `encodeRun_spec` specialized to the whole-batch pipeline, where the
constructor count is the number of payloads. -/
theorem encodeBatch_spec {lib : CodecLib} {cksumFn : Nat → List Nat → List Nat}
    {bits : Nat} {ps : List (List Nat)} {comp : Compression} {lvl : Int}
    {cap : Nat} {blob : List Nat}
    (h : encodeBatch lib cksumFn bits ps comp lvl cap = some blob) :
    ∃ sec c',
      blob = (if 0 < bits then
          cksumFn bits (0xb1 :: (SIZE_INCLUDED ||| compressionCode c') ::
            (encodeVarint ps.length ++ sec)) else []) ++
        0xb1 :: (SIZE_INCLUDED ||| compressionCode c') ::
          (encodeVarint ps.length ++ sec) ∧
      ((sec = sectionBytes ps ∧ c' = .NONE) ∨
        (∃ cb, compressBytes lib comp lvl (sectionBytes ps) = some cb ∧
          sec = encodeVarint (sectionBytes ps).length ++ cb ∧
          sec.length < (sectionBytes ps).length ∧ c' = comp ∧
          comp ≠ .NONE)) := by
  unfold encodeBatch at h
  cases hap : (BufferedWriteCodec.Encoder.new bits ps.length cap).appendAll ps with
  | none => rw [hap] at h; exact absurd h (by simp)
  | some e1 =>
    rw [hap] at h
    exact encodeRun_spec hap h

/-- The payload-section estimator accumulates exactly the uncompressed
section size. -/
theorem spEstimator_fold (ps : List (List Nat)) :
    ∀ acc : Nat,
      ((ps.foldl BufferedWriteSinglePayloadsCodec.Estimator.append
        ⟨acc⟩).calculateSize) = acc + sectionSize ps := by
  induction ps with
  | nil =>
    intro acc
    simp [BufferedWriteSinglePayloadsCodec.Estimator.calculateSize, sectionSize]
  | cons p ps ih =>
    intro acc
    simp only [List.foldl_cons, BufferedWriteSinglePayloadsCodec.Estimator.append,
      sectionSize, ih]
    omega

/-- The batch estimator counts the `append` calls it receives and
accumulates the uncompressed section size. -/
theorem bwEstimator_fold (ps : List (List Nat)) :
    ∀ (acc n : Nat),
      (ps.foldl BufferedWriteCodec.Estimator.append ⟨⟨acc⟩, n⟩).appends_count
          = n + ps.length ∧
        (ps.foldl BufferedWriteCodec.Estimator.append
          ⟨⟨acc⟩, n⟩).payloads_estimator.calculateSize = acc + sectionSize ps := by
  induction ps with
  | nil =>
    intro acc n
    simp [BufferedWriteSinglePayloadsCodec.Estimator.calculateSize, sectionSize]
  | cons p ps ih =>
    intro acc n
    simp only [List.foldl_cons, BufferedWriteCodec.Estimator.append,
      BufferedWriteSinglePayloadsCodec.Estimator.append, sectionSize]
    obtain ⟨ih1, ih2⟩ := ih (acc + (encodeVarintSize p.length + p.length)) (n + 1)
    constructor
    · rw [ih1]; simp only [List.length_cons]; omega
    · rw [ih2]; omega

/-- The flags-byte split inverts the flags byte the encoder writes. -/
theorem codeOfFlags_encode :
    ∀ c : Compression, codeOfFlags (SIZE_INCLUDED ||| compressionCode c) = some c := by
  intro c
  cases c <;> decide

/-- `compress` never changes the headroom: the replacement buffer is
allocated with the same headroom as the original blob. -/
theorem spCompress_headroom {lib : CodecLib}
    {e e1 : BufferedWriteSinglePayloadsCodec.Encoder} {compression : Compression}
    {zstd_level : Int} {adopted : Bool}
    (h : e.compress lib compression zstd_level = some (adopted, e1)) :
    e1.headroom = e.headroom := by
  by_cases hnone : compression = .NONE
  · simp only [BufferedWriteSinglePayloadsCodec.Encoder.compress, if_pos hnone,
      Option.some.injEq, Prod.mk.injEq] at h
    rw [← h.2]
  · simp only [BufferedWriteSinglePayloadsCodec.Encoder.compress,
      if_neg hnone] at h
    cases hcb : compressBytes lib compression zstd_level e.data with
    | none => rw [hcb] at h; simp at h
    | some cb =>
      rw [hcb] at h
      simp only at h
      split at h
      · split at h
        · simp only [Option.some.injEq, Prod.mk.injEq] at h
          rw [← h.2]
        · simp only [Option.some.injEq, Prod.mk.injEq] at h
          rw [← h.2]
      · simp at h

theorem sumCksum_length (bits : Nat) (d : List Nat) :
    (sumCksum bits d).length = bits / 8 := by
  simp [sumCksum]

/-- `rleLib` round-trips: decompressing a compressor output with the
original length recovers the original bytes. -/
theorem rleLib_inv (comp : Compression) (lvl : Int) (d cb : List Nat)
    (h : compressBytes rleLib comp lvl d = some cb) :
    decompFor rleLib comp d.length cb = some d := by
  have hval : cb = (if d = List.replicate d.length 0 then [] else d) →
      (if cb = [] then List.replicate d.length 0 else cb) = d := by
    intro hcb
    by_cases hz : d = List.replicate d.length 0
    · rw [hcb, if_pos hz, if_pos rfl, ← hz]
    · rw [hcb, if_neg hz]
      have hne : d ≠ [] := by
        intro hnil
        exact hz (by rw [hnil]; rfl)
      rw [if_neg hne]
  cases comp with
  | NONE => simp [compressBytes] at h
  | ZSTD =>
    simp only [compressBytes, rleLib, rleC] at h
    split at h
    · simp only [Option.some.injEq] at h
      simp [decompFor, rleLib, rleD, hval h.symm]
    · simp at h
  | LZ4 =>
    simp only [compressBytes, rleLib, rleC, Option.some.injEq] at h
    simp [decompFor, rleLib, rleD, hval h.symm]
  | LZ4_HC =>
    simp only [compressBytes, rleLib, rleC, Option.some.injEq] at h
    simp [decompFor, rleLib, rleD, hval h.symm]

/-- Running the decoder on a well-formed blob (checksum region computed by
the encoder's checksum function, magic byte, encoder-written flags byte,
count varint, payload section) passes the header and checksum stages and
reduces to the decompress/parse stages on the payload section. -/
theorem decode_header (lib : CodecLib) (cksumFn : Nat → List Nat → List Nat)
    (bits : Nat) (c' : Compression) (count : Nat) (sec : List Nat)
    (hck : ∀ d, (cksumFn bits d).length = bits / 8) :
    decode lib cksumFn bits
        ((if 0 < bits then cksumFn bits (0xb1 ::
            (SIZE_INCLUDED ||| compressionCode c') ::
            (encodeVarint count ++ sec)) else []) ++
          0xb1 :: (SIZE_INCLUDED ||| compressionCode c') ::
            (encodeVarint count ++ sec))
      = match c' with
        | .NONE => parsePayloads count sec
        | _ =>
          match decodeVarint sec with
          | none => none
          | some (uncLen, cbytes) =>
            match decompFor lib c' uncLen cbytes with
            | none => none
            | some d =>
              if d.length = uncLen then parsePayloads count d else none := by
  set flags := SIZE_INCLUDED ||| compressionCode c' with hflags
  set rest := (0xb1 : Nat) :: flags :: (encodeVarint count ++ sec) with hrest
  set ck := (if 0 < bits then cksumFn bits rest else []) with hckdef
  have hcklen : ck.length = bits / 8 := by
    rw [hckdef]
    split
    · exact hck rest
    · simp
      omega
  have hdrop : (ck ++ rest).drop (bits / 8) = rest := by
    rw [← hcklen]
    exact List.drop_left ck rest
  have htake : (ck ++ rest).take (bits / 8) = ck := by
    rw [← hcklen]
    exact List.take_left ck rest
  have hlen : ¬ (ck ++ rest).length < bits / 8 := by
    simp only [List.length_append, hcklen]
    omega
  have hguard : ¬ (0 < bits ∧ ck ≠ cksumFn bits rest) := by
    rintro ⟨hpos, hne⟩
    exact hne (by rw [hckdef, if_pos hpos])
  simp only [decode, if_neg hlen, hdrop, htake, if_true, hflags,
    codeOfFlags_encode, decodeVarint_encodeVarint, if_neg hguard]

/-! ## Claims -/

/-- C1: Round trip — for every ordered sequence of byte payloads (including
the empty sequence and zero-length payloads), every compression request in
{NONE, ZSTD, LZ4, LZ4_HC} and every checksum width in {0, 32, 64}, decoding
the blob produced by `BufferedWriteCodec::Encoder::encode` (per the Decoder
contract) yields exactly the original payload sequence, in order, with
identical bytes.  The external collaborators obey their contracts: the
checksum function emits `bits/8` bytes, and the codec's decompressor
inverts its compressor. -/
theorem decode_encodeBatch_roundTrip
    (lib : CodecLib) (cksumFn : Nat → List Nat → List Nat) (bits : Nat)
    (comp : Compression) (lvl : Int) (ps : List (List Nat)) (cap : Nat)
    (blob : List Nat)
    (hbits : bits = 0 ∨ bits = 32 ∨ bits = 64)
    (hck : ∀ d, (cksumFn bits d).length = bits / 8)
    (hinv : ∀ d cb, compressBytes lib comp lvl d = some cb →
      decompFor lib comp d.length cb = some d)
    (henc : encodeBatch lib cksumFn bits ps comp lvl cap = some blob) :
    decode lib cksumFn bits blob = some ps := by
  obtain ⟨sec, c', hblob, hcase⟩ := encodeBatch_spec henc
  subst hblob
  rw [decode_header lib cksumFn bits c' ps.length sec hck]
  rcases hcase with ⟨rfl, rfl⟩ | ⟨cb, hcb, rfl, hlt, rfl, hne⟩
  · exact parsePayloads_sectionBytes ps
  · have hi := hinv (sectionBytes ps) cb hcb
    cases c' with
    | NONE => exact absurd rfl hne
    | ZSTD => simp [decodeVarint_encodeVarint, hi, parsePayloads_sectionBytes]
    | LZ4 => simp [decodeVarint_encodeVarint, hi, parsePayloads_sectionBytes]
    | LZ4_HC => simp [decodeVarint_encodeVarint, hi, parsePayloads_sectionBytes]

/-- C1 witness: a concrete five-empty-payload batch, ZSTD requested and
adopted (the zero-run library compresses the all-zero section), checksum
width 32; decoding the concrete encoded blob returns the batch. -/
theorem decode_encodeBatch_roundTrip_witness :
    decode rleLib sumCksum 32 [190, 190, 190, 190, 177, 3, 5, 5]
      = some (List.replicate 5 []) :=
  decode_encodeBatch_roundTrip rleLib sumCksum 32 .ZSTD 1
    (List.replicate 5 []) 12 [190, 190, 190, 190, 177, 3, 5, 5]
    (Or.inr (Or.inl rfl))
    (fun d => sumCksum_length 32 d)
    (fun d cb h => rleLib_inv .ZSTD 1 d cb h)
    (by decide)

/-- C2: Compression adoption policy — when a codec is requested and its
compressor returns output fitting the computed bound, the compressed form
(`varint(uncompressed_len) ++ compressed_bytes`) replaces the uncompressed
payload section if and only if it is strictly smaller; otherwise the
compression outcome is reset to `NONE` and the uncompressed bytes are
emitted unchanged. -/
theorem compress_adoption_policy
    (lib : CodecLib) (e : BufferedWriteSinglePayloadsCodec.Encoder)
    (comp : Compression) (lvl : Int) (cb : List Nat)
    (hne : comp ≠ .NONE)
    (hcb : compressBytes lib comp lvl e.data = some cb)
    (hfit : (encodeVarint e.data.length).length + cb.length ≤
      kMaxVarintLength64 + compressedDataBound lib comp e.data.length) :
    ((encodeVarint e.data.length ++ cb).length < e.data.length →
        e.encode lib comp lvl = some
          (⟨e.headroom,
            kMaxVarintLength64 + compressedDataBound lib comp e.data.length -
              ((encodeVarint e.data.length).length + cb.length),
            encodeVarint e.data.length ++ cb⟩, comp)) ∧
      (¬ (encodeVarint e.data.length ++ cb).length < e.data.length →
        e.encode lib comp lvl = some (e, .NONE)) := by
  constructor
  · intro hlt
    have hlt2 : (encodeVarint e.data.length).length + cb.length < e.data.length := by
      simpa using hlt
    simp [BufferedWriteSinglePayloadsCodec.Encoder.encode,
      BufferedWriteSinglePayloadsCodec.Encoder.compress, if_neg hne, hcb,
      if_pos hfit, if_pos hlt2]
  · intro hge
    have hge2 : ¬ (encodeVarint e.data.length).length + cb.length < e.data.length := by
      simpa using hge
    simp [BufferedWriteSinglePayloadsCodec.Encoder.encode,
      BufferedWriteSinglePayloadsCodec.Encoder.compress, if_neg hne, hcb,
      if_pos hfit, if_neg hge2]

/-- C2 witness: the zero-run library compresses the all-zero 5-byte section
to 1 byte, which is adopted and recorded as ZSTD. -/
theorem compress_adoption_policy_witness :
    BufferedWriteSinglePayloadsCodec.Encoder.encode rleLib
        ⟨7, 5, [0, 0, 0, 0, 0]⟩ .ZSTD 1
      = some (⟨7, 14, [5]⟩, .ZSTD) :=
  (compress_adoption_policy rleLib ⟨7, 5, [0, 0, 0, 0, 0]⟩ .ZSTD 1 []
    (by decide) (by decide) (by decide)).1 (by decide)

/-- C3: Estimator bound — for a payload sequence fed identically to the
batch estimator and the batch encoder, the estimate equals the encoded blob
length when `compression = NONE`, and is an upper bound on the blob length
in general (in particular whenever compression is adopted). -/
theorem estimator_bound
    (lib : CodecLib) (cksumFn : Nat → List Nat → List Nat) (bits : Nat)
    (ps : List (List Nat)) (comp : Compression) (lvl : Int) (cap : Nat)
    (blob : List Nat)
    (hck : ∀ d, (cksumFn bits d).length = bits / 8)
    (henc : encodeBatch lib cksumFn bits ps comp lvl cap = some blob) :
    blob.length ≤ (estimateBatch ps).calculateSize bits ∧
      (comp = .NONE → (estimateBatch ps).calculateSize bits = blob.length) := by
  have hest : (estimateBatch ps).calculateSize bits
      = BufferedWriteCodec.calculateHeaderSize bits ps.length + sectionSize ps := by
    obtain ⟨h1, h2⟩ := bwEstimator_fold ps 0 0
    simp [estimateBatch, BufferedWriteCodec.Estimator.calculateSize, h1, h2]
  obtain ⟨sec, c', hblob, hcase⟩ := encodeBatch_spec henc
  have hcklen : ((if 0 < bits then
      cksumFn bits (0xb1 :: (SIZE_INCLUDED ||| compressionCode c') ::
        (encodeVarint ps.length ++ sec)) else []) : List Nat).length = bits / 8 := by
    split
    · exact hck _
    · simp
      omega
  have hlen : blob.length
      = bits / 8 + 2 + encodeVarintSize ps.length + sec.length := by
    rw [hblob]
    simp only [List.length_append, List.length_cons, hcklen, encodeVarintSize]
    omega
  have hhs : BufferedWriteCodec.calculateHeaderSize bits ps.length
      = bits / 8 + 2 + encodeVarintSize ps.length := rfl
  rcases hcase with ⟨hsec, _⟩ | ⟨cb, _, _, hlt, _, hne⟩
  · have hslen : sec.length = sectionSize ps := by
      rw [hsec, sectionBytes_length]
    constructor
    · rw [hest, hlen, hhs, hslen]
    · intro _
      rw [hest, hlen, hhs, hslen]
  · have hslen : sec.length < sectionSize ps := by
      rw [← sectionBytes_length]
      exact hlt
    constructor
    · rw [hest, hlen, hhs]
      omega
    · intro hcn
      exact absurd hcn hne

/-- C3 witness: a two-payload batch encoded without compression has exactly
the estimated size. -/
theorem estimator_bound_witness :
    ([177, 1, 2, 1, 9, 2, 8, 7] : List Nat).length
        ≤ (estimateBatch [[9], [8, 7]]).calculateSize 0 ∧
      (Compression.NONE = .NONE →
        (estimateBatch [[9], [8, 7]]).calculateSize 0
          = ([177, 1, 2, 1, 9, 2, 8, 7] : List Nat).length) :=
  estimator_bound idLib sumCksum 0 [[9], [8, 7]] .NONE 0 9
    [177, 1, 2, 1, 9, 2, 8, 7] (fun d => sumCksum_length 0 d) (by decide)

/-- C4: Header layout — every successfully encoded batch consists of the
reserved checksum bytes, the magic byte `0xB1`, a flags byte equal to the
`SIZE_INCLUDED` bit OR'd with the numeric code of the actual (possibly
downgraded) compression, `varint(appends_count)` and the payload section;
and the empty batch with `checksum_bits = 32`, `compression = NONE`
produces exactly `[4 checksum bytes][0xB1][0x01][0x00]` (for any capacity,
since no payload is appended). -/
theorem encodeHeader_layout
    (lib : CodecLib) (cksumFn : Nat → List Nat → List Nat) (bits : Nat)
    (ps : List (List Nat)) (comp : Compression) (lvl : Int) (cap : Nat)
    (blob : List Nat)
    (hck : ∀ d, (cksumFn 32 d).length = 32 / 8)
    (henc : encodeBatch lib cksumFn bits ps comp lvl cap = some blob) :
    (∃ sec c', (c' = comp ∨ c' = .NONE) ∧
      blob = (if 0 < bits then
          cksumFn bits (0xb1 :: (SIZE_INCLUDED ||| compressionCode c') ::
            (encodeVarint ps.length ++ sec)) else []) ++
        0xb1 :: (SIZE_INCLUDED ||| compressionCode c') ::
          (encodeVarint ps.length ++ sec)) ∧
    (∀ cap2 : Nat, encodeBatch lib cksumFn 32 [] .NONE lvl cap2
        = some (cksumFn 32 [0xb1, 0x01, 0x00] ++ [0xb1, 0x01, 0x00])) ∧
    (cksumFn 32 [0xb1, 0x01, 0x00]).length = 4 := by
  refine ⟨?_, ?_, hck _⟩
  · obtain ⟨sec, c', hblob, hcase⟩ := encodeBatch_spec henc
    refine ⟨sec, c', ?_, hblob⟩
    rcases hcase with ⟨_, hc⟩ | ⟨_, _, _, _, hc, _⟩
    · exact Or.inr hc
    · exact Or.inl hc
  · intro cap2
    have h1 : (BufferedWriteCodec.Encoder.new 32 0 cap2).payloads_encoder.encode
        lib .NONE lvl
        = some ((BufferedWriteCodec.Encoder.new 32 0 cap2).payloads_encoder,
            .NONE) := rfl
    show (BufferedWriteCodec.Encoder.new 32 0 cap2).encode lib cksumFn .NONE lvl
        = some (cksumFn 32 [0xb1, 0x01, 0x00] ++ [0xb1, 0x01, 0x00])
    simp only [BufferedWriteCodec.Encoder.encode, h1]
    rw [if_pos (show (BufferedWriteCodec.Encoder.new 32 0 cap2).header_size ≤
        (BufferedWriteCodec.Encoder.new 32 0 cap2).payloads_encoder.headroom from
        le_of_eq rfl)]
    rw [if_pos (show (BufferedWriteCodec.Encoder.new 32 0 cap2).checksum_bits / 8
          + 2 + encodeVarintSize
            (BufferedWriteCodec.Encoder.new 32 0 cap2).appends_count
        = (BufferedWriteCodec.Encoder.new 32 0 cap2).header_size from rfl)]
    rfl

/-- C4 witness: a one-payload uncompressed batch at checksum width 0, and
the concrete empty-batch scenario blob under the byte-sum checksum. -/
theorem encodeHeader_layout_witness :
    (∀ cap2 : Nat, encodeBatch idLib sumCksum 32 [] .NONE 0 cap2
        = some (sumCksum 32 [0xb1, 0x01, 0x00] ++ [0xb1, 0x01, 0x00])) ∧
      sumCksum 32 [0xb1, 0x01, 0x00] = [178, 178, 178, 178] :=
  ⟨(encodeHeader_layout idLib sumCksum 0 [[104, 105]] .NONE 0 6
      [177, 1, 1, 2, 104, 105] (fun d => sumCksum_length 32 d)
      (by decide)).2.1,
    by decide⟩

/-- C5: Checksum coverage — for every batch encoded with `checksum_bits >
0`, the leading `checksum_bits/8` bytes of the blob are exactly the
checksum function applied to every byte after the checksum region through
the end of the blob (the end of the payload section). -/
theorem checksum_coverage
    (lib : CodecLib) (cksumFn : Nat → List Nat → List Nat) (bits : Nat)
    (ps : List (List Nat)) (comp : Compression) (lvl : Int) (cap : Nat)
    (blob : List Nat)
    (hck : ∀ d, (cksumFn bits d).length = bits / 8)
    (hpos : 0 < bits)
    (henc : encodeBatch lib cksumFn bits ps comp lvl cap = some blob) :
    blob.take (bits / 8) = cksumFn bits (blob.drop (bits / 8)) := by
  obtain ⟨sec, c', hblob, _⟩ := encodeBatch_spec henc
  rw [if_pos hpos] at hblob
  subst hblob
  have hlen : (cksumFn bits (0xb1 :: (SIZE_INCLUDED ||| compressionCode c') ::
      (encodeVarint ps.length ++ sec))).length = bits / 8 := hck _
  rw [← hlen, List.take_left, List.drop_left]

/-- C5 witness: a one-payload batch at checksum width 64; the 8 leading
bytes are the byte-sum checksum of the trailing bytes. -/
theorem checksum_coverage_witness :
    ([181, 181, 181, 181, 181, 181, 181, 181, 177, 1, 1, 1, 1] : List Nat).take 8
      = sumCksum 64
          (([181, 181, 181, 181, 181, 181, 181, 181, 177, 1, 1, 1, 1] : List Nat).drop 8) :=
  checksum_coverage idLib sumCksum 64 [[1]] .NONE 0 13
    [181, 181, 181, 181, 181, 181, 181, 181, 177, 1, 1, 1, 1]
    (fun d => sumCksum_length 64 d) (by decide) (by decide)

/-- C6: Capacity precondition safety — if the payload-section encoder is
constructed with capacity at least the uncompressed section size of the
payload sequence (the estimator's total), every `append` succeeds in full:
all capacity assertions hold and the final buffer state is exactly the
headroom, the leftover capacity and the section bytes. -/
theorem append_capacity_safe
    (ps : List (List Nat)) (cap hr : Nat)
    (hcap : (ps.foldl BufferedWriteSinglePayloadsCodec.Estimator.append
      ⟨0⟩).calculateSize ≤ cap) :
    (BufferedWriteSinglePayloadsCodec.Encoder.new cap hr).appendAll ps
      = some ⟨hr, cap - sectionSize ps, sectionBytes ps⟩ := by
  have hsec : sectionSize ps ≤ cap := by
    have hf := spEstimator_fold ps 0
    omega
  have h := BufferedWriteSinglePayloadsCodec.Encoder.appendAll_of_capacity ps
    (BufferedWriteSinglePayloadsCodec.Encoder.new cap hr) hsec
  simpa [BufferedWriteSinglePayloadsCodec.Encoder.new] using h

/-- C6 witness: the two payloads `[9]` and `[8,7]` need exactly 5 bytes;
with capacity 5 every append succeeds and fills the buffer completely. -/
theorem append_capacity_safe_witness :
    (BufferedWriteSinglePayloadsCodec.Encoder.new 5 2).appendAll [[9], [8, 7]]
      = some ⟨2, 0, [1, 9, 2, 8, 7]⟩ :=
  append_capacity_safe [[9], [8, 7]] 5 2 (by decide)

/-- C7: Headroom invariant — the payload-section constructor reserves
exactly the requested headroom, `append` and `compress` both preserve it,
and therefore the blob reaching the batch layer's header backfill has
headroom equal to `header_size` in both the compressed and uncompressed
outcomes. -/
theorem headroom_invariant :
    (∀ cap hr : Nat,
      (BufferedWriteSinglePayloadsCodec.Encoder.new cap hr).headroom = hr) ∧
    (∀ (e e1 : BufferedWriteSinglePayloadsCodec.Encoder) (p : List Nat),
      e.append p = some e1 → e1.headroom = e.headroom) ∧
    (∀ (lib : CodecLib) (e e1 : BufferedWriteSinglePayloadsCodec.Encoder)
      (comp : Compression) (lvl : Int) (adopted : Bool),
      e.compress lib comp lvl = some (adopted, e1) →
      e1.headroom = e.headroom) ∧
    (∀ (lib : CodecLib) (bits ac cap : Nat) (ps : List (List Nat))
      (comp c' : Compression) (lvl : Int)
      (e1 : BufferedWriteCodec.Encoder)
      (blob : BufferedWriteSinglePayloadsCodec.Encoder),
      (BufferedWriteCodec.Encoder.new bits ac cap).appendAll ps = some e1 →
      e1.payloads_encoder.encode lib comp lvl = some (blob, c') →
      blob.headroom = (BufferedWriteCodec.Encoder.new bits ac cap).header_size) := by
  refine ⟨fun cap hr => rfl, ?_, ?_, ?_⟩
  · intro e e1 p h
    obtain ⟨_, _, rfl⟩ := BufferedWriteSinglePayloadsCodec.Encoder.append_some h
    rfl
  · intro lib e e1 comp lvl adopted h
    exact spCompress_headroom h
  · intro lib bits ac cap ps comp c' lvl e1 blob hap henc
    rw [BufferedWriteCodec.Encoder.appendAll_eq] at hap
    cases hsp : (BufferedWriteCodec.Encoder.new bits ac
        cap).payloads_encoder.appendAll ps with
    | none => rw [hsp] at hap; simp at hap
    | some pe =>
      rw [hsp] at hap
      simp only [Option.map_some', Option.some.injEq] at hap
      subst hap
      obtain ⟨hh, _, _⟩ :=
        BufferedWriteSinglePayloadsCodec.Encoder.appendAll_some _ _ _ hsp
      obtain ⟨hhr, _⟩ :=
        BufferedWriteSinglePayloadsCodec.Encoder.encode_cases henc
      rw [hhr, hh]
      rfl

/-- C7 witness: a concrete run (width 32, three payloads appended after
constructing for capacity 12) ends with blob headroom equal to the header
size 7. -/
theorem headroom_invariant_witness :
    (⟨7, 14, [5]⟩ : BufferedWriteSinglePayloadsCodec.Encoder).headroom
      = (BufferedWriteCodec.Encoder.new 32 5 12).header_size :=
  headroom_invariant.2.2.2 rleLib 32 5 12 (List.replicate 5 []) .ZSTD .ZSTD 1
    ⟨32, 5, 7, ⟨7, 0, [0, 0, 0, 0, 0]⟩⟩ ⟨7, 14, [5]⟩ (by decide) (by decide)

/-- C8: Codec-failure fatality — if the requested codec's library reports a
failure (`ZSTD_isError`, or LZ4/LZ4_HC returning ≤ 0, modelled as the
compressor returning `none`), the payload-section encode aborts on the
`ld_check` (returns the fatal value), and so does the batch-layer encode:
no output blob is ever produced. -/
theorem codec_failure_fatal
    (lib : CodecLib) (e : BufferedWriteSinglePayloadsCodec.Encoder)
    (comp : Compression) (lvl : Int)
    (hfail : (comp = .ZSTD ∧ lib.zstd lvl e.data = none) ∨
      (comp = .LZ4 ∧ lib.lz4 e.data = none) ∨
      (comp = .LZ4_HC ∧ lib.lz4hc e.data = none)) :
    e.encode lib comp lvl = none ∧
      ∀ (cksumFn : Nat → List Nat → List Nat) (be : BufferedWriteCodec.Encoder),
        be.payloads_encoder = e → be.encode lib cksumFn comp lvl = none := by
  have hcb : compressBytes lib comp lvl e.data = none := by
    rcases hfail with ⟨rfl, hz⟩ | ⟨rfl, hz⟩ | ⟨rfl, hz⟩ <;>
      simp [compressBytes, hz]
  have hne : comp ≠ .NONE := by
    rcases hfail with ⟨rfl, _⟩ | ⟨rfl, _⟩ | ⟨rfl, _⟩ <;> simp
  have hcomp : e.compress lib comp lvl = none := by
    simp [BufferedWriteSinglePayloadsCodec.Encoder.compress, if_neg hne, hcb]
  have hsp : e.encode lib comp lvl = none := by
    simp [BufferedWriteSinglePayloadsCodec.Encoder.encode, hcomp]
  refine ⟨hsp, ?_⟩
  intro cksumFn be hbe
  simp [BufferedWriteCodec.Encoder.encode, hbe, hsp]

/-- C8 witness: with the always-failing library, encoding a small blob with
LZ4 requested aborts. -/
theorem codec_failure_fatal_witness :
    BufferedWriteSinglePayloadsCodec.Encoder.encode failLib
      ⟨2, 0, [3, 1, 2, 3]⟩ .LZ4 0 = none :=
  (codec_failure_fatal failLib ⟨2, 0, [3, 1, 2, 3]⟩ .LZ4 0
    (Or.inr (Or.inl ⟨rfl, rfl⟩))).1

/-- C9: The payload count written into the header is the `appends_count`
passed to the batch encoder's constructor, not the number of `append` calls
actually made: for every run (whatever `ps` is appended) the header carries
`varint(ac)` for the constructor value `ac`, while the estimator is the
component that counts actual `append` calls. -/
theorem header_count_from_ctor
    (lib : CodecLib) (cksumFn : Nat → List Nat → List Nat)
    (bits ac cap : Nat) (ps : List (List Nat)) (comp : Compression) (lvl : Int)
    (e1 : BufferedWriteCodec.Encoder) (blob : List Nat)
    (hap : (BufferedWriteCodec.Encoder.new bits ac cap).appendAll ps = some e1)
    (henc : e1.encode lib cksumFn comp lvl = some blob) :
    (∃ sec c', blob = (if 0 < bits then
        cksumFn bits (0xb1 :: (SIZE_INCLUDED ||| compressionCode c') ::
          (encodeVarint ac ++ sec)) else []) ++
      0xb1 :: (SIZE_INCLUDED ||| compressionCode c') ::
        (encodeVarint ac ++ sec)) ∧
      (estimateBatch ps).appends_count = ps.length := by
  constructor
  · obtain ⟨sec, c', hb, _⟩ := encodeRun_spec hap henc
    exact ⟨sec, c', hb⟩
  · obtain ⟨h1, _⟩ := bwEstimator_fold ps 0 0
    simpa using h1

/-- C9 witness: constructor count 2 but a single (empty) payload appended —
the header varint still records 2, while the estimator counts 1. -/
theorem header_count_from_ctor_witness :
    (∃ sec c', ([177, 1, 2, 0] : List Nat) = (if 0 < 0 then
        sumCksum 0 (0xb1 :: (SIZE_INCLUDED ||| compressionCode c') ::
          (encodeVarint 2 ++ sec)) else []) ++
      0xb1 :: (SIZE_INCLUDED ||| compressionCode c') ::
        (encodeVarint 2 ++ sec)) ∧
      (estimateBatch [[]]).appends_count = ([[]] : List (List Nat)).length :=
  header_count_from_ctor rleLib sumCksum 0 2 4 [[]] .LZ4 0
    ⟨0, 2, 3, ⟨3, 0, [0]⟩⟩ [177, 1, 2, 0] (by decide) (by decide)

/-- C10: The batch encoder constructor computes the inner capacity as
`capacity - header_size` in unguarded `size_t` (mod `2^64`) arithmetic,
with `header_size = checksum_bits/8 + 2 + varint_size(appends_count)`: when
`capacity ≥ header_size` this is the exact difference, and for every
capacity below that bound the subtraction wraps around to
`capacity + 2^64 - header_size`. -/
theorem ctor_capacity_wrap (bits ac cap : Nat)
    (hcap : cap < 2 ^ 64)
    (hhs : BufferedWriteCodec.calculateHeaderSize bits ac < 2 ^ 64) :
    BufferedWriteCodec.calculateHeaderSize bits ac
        = bits / 8 + 2 + encodeVarintSize ac ∧
      (BufferedWriteCodec.calculateHeaderSize bits ac ≤ cap →
        (BufferedWriteCodec.Encoder.new bits ac cap).payloads_encoder.tailroom
          = cap - BufferedWriteCodec.calculateHeaderSize bits ac) ∧
      (cap < BufferedWriteCodec.calculateHeaderSize bits ac →
        (BufferedWriteCodec.Encoder.new bits ac cap).payloads_encoder.tailroom
          = cap + 2 ^ 64 - BufferedWriteCodec.calculateHeaderSize bits ac) := by
  refine ⟨rfl, ?_, ?_⟩
  all_goals
    intro h
    show usub64 cap (BufferedWriteCodec.calculateHeaderSize bits ac) = _
    unfold usub64
    rw [Nat.mod_eq_of_lt hhs]
    have h64 : (2 : Nat) ^ 64 = 18446744073709551616 := by norm_num
    rw [h64] at hcap hhs ⊢
    omega

/-- C10 witness: capacity 3 with header size 7 (width 32, zero appends)
wraps to `3 + 2^64 - 7`. -/
theorem ctor_capacity_wrap_witness :
    (BufferedWriteCodec.Encoder.new 32 0 3).payloads_encoder.tailroom
      = 3 + 2 ^ 64 - BufferedWriteCodec.calculateHeaderSize 32 0 :=
  (ctor_capacity_wrap 32 0 3 (by norm_num) (by decide)).2.2 (by decide)
